import Mathlib

/-!
# Verification of the MediaCloudSubTrans subtitle translation bot (`src/bot.py`)

Shallow embedding of the subtitle codec and translation pipeline of
`SubtitleTranslator` in `src/bot.py`.

Conventions of the embedding:

* File bytes are modelled at the level of decoded text (`String`): a valid
  UTF-8 byte sequence corresponds 1-1 to its decoded string, and the
  `utf-8-sig` codec's byte-order-mark stripping is modelled by `stripBOM`
  (dropping one leading U+FEFF character).
* `parse_srt` embeds the semantics of
  `re.finditer(r'(\d+)\n(\d{2}:\d{2}:\d{2},\d{3}) --> (\d{2}:\d{2}:\d{2},\d{3})\n(.+?)(?=\n\n|\Z)', s, re.DOTALL)`:
  the scanner tries to match at each position from the left, a successful
  match continues scanning at the end of the (lazily minimal) text group,
  a failed position advances by one character.  `\d` is modelled as the
  ASCII digits (`Char.isDigit`).
* The external `googletrans` translator is an oracle `Nat → Option String`
  per text: the value of attempt `n` (`none` = the call raises).
* The Python source awaits `time.sleep` (`from time import sleep`;
  `await sleep(...)`).  `time.sleep(...)` returns `None` and awaiting `None`
  raises `TypeError`, so both the retry backoff in `translate_text` and the
  per-text pacing sleep in `translate_srt` raise at runtime.  The `_run`
  functions model that control flow faithfully with `Except PyErr`.
-/

/-- One subtitle record, as produced by `parse_srt` (line 48 of `src/bot.py`):
a dict with keys `index`, `start`, `end`, `text`. -/
structure Subtitle where
  index : String
  start : String
  «end» : String
  text : String
deriving DecidableEq, Repr

/-- A Python runtime error surfaced by the pipeline.  `typeErr` stands for the
`TypeError: object NoneType can't be used in 'await' expression` raised by
`await sleep(...)` with `sleep = time.sleep`. -/
inductive PyErr where
  | typeErr
deriving DecidableEq, Repr

/-! ## Subtitle codec: `parse_srt` (lines 37-54) -/

/-- `str.replace('\n', ' ')` applied character-wise (line 52). -/
def subNl (c : Char) : Char := if c = '\n' then ' ' else c

/-- The zero-width lookahead `(?=\n\n|\Z)` of the pattern: true iff the
remaining input starts with a blank line or is the end of the input. -/
def stopHere : List Char → Bool
  | [] => true
  | c1 :: c2 :: _ => c1 = '\n' && c2 = '\n'
  | _ => false

/-- The lazy group `(.+?)(?=\n\n|\Z)` under `re.DOTALL`: the shortest
non-empty prefix after which the lookahead holds, together with the rest
of the input (the lookahead consumes nothing). -/
def lazyText : List Char → Option (List Char × List Char)
  | [] => none
  | c :: rest =>
    if stopHere rest then some ([c], rest)
    else (lazyText rest).map (fun p => (c :: p.1, p.2))

/-- Consume two ASCII digits (`\d{2}`). -/
def read2d : List Char → Option (Char × Char × List Char)
  | c1 :: c2 :: rest =>
    if c1.isDigit && c2.isDigit then some (c1, c2, rest) else none
  | _ => none

/-- Consume three ASCII digits (`\d{3}`). -/
def read3d : List Char → Option (Char × Char × Char × List Char)
  | c1 :: c2 :: c3 :: rest =>
    if c1.isDigit && c2.isDigit && c3.isDigit then some (c1, c2, c3, rest) else none
  | _ => none

/-- Consume one expected literal character. -/
def readLit (x : Char) : List Char → Option (List Char)
  | c :: rest => if c = x then some rest else none
  | [] => none

/-- Consume a timestamp `\d{2}:\d{2}:\d{2},\d{3}`, returning its twelve
characters verbatim and the rest of the input. -/
def readTS (cs : List Char) : Option (List Char × List Char) := do
  let (d1, d2, r1) ← read2d cs
  let r2 ← readLit ':' r1
  let (d3, d4, r3) ← read2d r2
  let r4 ← readLit ':' r3
  let (d5, d6, r5) ← read2d r4
  let r6 ← readLit ',' r5
  let (d7, d8, d9, r7) ← read3d r6
  pure ([d1, d2, ':', d3, d4, ':', d5, d6, ',', d7, d8, d9], r7)

/-- Consume the literal `" --> "` separator. -/
def readArrow (cs : List Char) : Option (List Char) := do
  let r1 ← readLit ' ' cs
  let r2 ← readLit '-' r1
  let r3 ← readLit '-' r2
  let r4 ← readLit '>' r3
  readLit ' ' r4

/-- Try to match the whole block pattern at the current position.
`(\d+)` backtracking cannot shorten the digit run (the run must be followed
by `'\n'`, and any shorter run is followed by a digit), so the index group
is exactly the maximal digit run at this position.  On success returns the
record (with `'\n' → ' '` applied to the text group, line 52) and the rest
of the input at the match's end. -/
def matchBlock (cs : List Char) : Option (Subtitle × List Char) :=
  let idx := cs.takeWhile Char.isDigit
  if idx = [] then none
  else do
    let r1 ← readLit '\n' (cs.dropWhile Char.isDigit)
    let (ts1, r2) ← readTS r1
    let r3 ← readArrow r2
    let (ts2, r4) ← readTS r3
    let r5 ← readLit '\n' r4
    let (t, after) ← lazyText r5
    pure (⟨idx.asString, ts1.asString, ts2.asString, (t.map subNl).asString⟩, after)

/-- `finditer` scanning: try each position from the left; a successful match
resumes at its end, a failed position advances one character.  The fuel is an
upper bound on the input length (a match always consumes at least one
character, so `cs.length` suffices). -/
def scanAux : Nat → List Char → List Subtitle
  | 0, _ => []
  | _ + 1, [] => []
  | fuel + 1, c :: rest =>
    match matchBlock (c :: rest) with
    | some (sub, after) => sub :: scanAux fuel after
    | none => scanAux fuel rest

/-- All matches of the subtitle-block pattern, in order. -/
def scanList (cs : List Char) : List Subtitle := scanAux cs.length cs

/-- `bytes.decode('utf-8-sig')`: drop one leading byte-order mark. -/
def stripBOM : List Char → List Char
  | c :: rest => if c = '\uFEFF' then rest else c :: rest
  | [] => []

/-- `SubtitleTranslator.parse_srt` (lines 37-54): decode the file content and
collect every block matching the pattern. -/
def parse_srt (content : String) : List Subtitle :=
  scanList (stripBOM content.toList)

/-! ## Subtitle codec: `create_srt` (lines 56-60) -/

/-- `f"{sub['index']}\n{sub['start']} --> {sub['end']}\n{sub['text']}\n"`
(line 59). -/
def blockStr (sub : Subtitle) : String :=
  sub.index ++ "\n" ++ sub.start ++ " --> " ++ sub.«end» ++ "\n" ++ sub.text ++ "\n"

/-- `'\n'.join(...)` (line 60). -/
def joinNl : List String → String
  | [] => ""
  | [s] => s
  | s :: rest => s ++ "\n" ++ joinNl rest

/-- `SubtitleTranslator.create_srt` (lines 56-60); the `BytesIO`/UTF-8
encoding wrapper is modelled at the string level. -/
def create_srt (subs : List Subtitle) : String :=
  joinNl (subs.map blockStr)

/-! ## Translation pipeline (`translate_text`, lines 26-35; `translate_srt`, lines 62-91)

The constants set in `SubtitleTranslator.__init__` (lines 20-24). -/

def retry_delay : Nat := 5

def max_retries : Nat := 3

def batch_size : Nat := 5

/-- The attempt loop of `translate_text` (lines 27-35), run faithfully.
`remaining` counts the iterations of `for attempt in range(max_retries)`
still to run (initially `maxRetries`, with `attempt + remaining = maxRetries`
throughout).  A successful call returns its result.  A failed call whose
`attempt < max_retries - 1` executes `await sleep(retry_delay * (attempt+1))`
(line 34); `sleep` is `time.sleep`, which blocks and then returns `None`, and
awaiting `None` raises `TypeError`, so that branch raises instead of
retrying.  A failure on the very last attempt falls through the loop and
returns the original text (line 35). -/
def translate_text_run_go (oracle : Nat → Option String) (maxRetries : Nat)
    (text : String) : Nat → Nat → Except PyErr String
  | _, 0 => .ok text
  | attempt, remaining + 1 =>
    match oracle attempt with
    | some r => .ok r
    | none =>
      if attempt < maxRetries - 1 then .error .typeErr
      else translate_text_run_go oracle maxRetries text (attempt + 1) remaining

/-- `SubtitleTranslator.translate_text` (lines 26-35) as executed. -/
def translate_text_run (oracle : Nat → Option String) (maxRetries : Nat)
    (text : String) : Except PyErr String :=
  translate_text_run_go oracle maxRetries text 0 maxRetries

/-- `subtitles[i : i + batch_size]` for `i in range(0, total_subs, batch_size)`
(lines 68-69): consecutive slices of size `bs`.  The fuel is the list length
(each slice takes at least its head).  For `bs = 0` Python's `range` would
raise `ValueError`; all claims below take `0 < bs`. -/
def toBatchesAux (bs : Nat) : Nat → List Subtitle → List (List Subtitle)
  | 0, _ => []
  | _ + 1, [] => []
  | fuel + 1, c :: rest =>
    (c :: rest.take (bs - 1)) :: toBatchesAux bs fuel (rest.drop (bs - 1))

/-- The batches visited by the loop at line 68. -/
def toBatches (bs : Nat) (subs : List Subtitle) : List (List Subtitle) :=
  toBatchesAux bs subs.length subs

/-- The inner per-text loop of `translate_srt` (lines 73-76), run faithfully.
After each successfully translated text the code executes
`await sleep(random.uniform(0.5, 1.5))` (line 76); `sleep` is `time.sleep`,
which returns `None`, and awaiting `None` raises `TypeError` — so the loop
raises right after its first text and never reaches a second one. -/
def texts_run (trText : String → Except PyErr String) :
    List String → Except PyErr (List String)
  | [] => .ok []
  | t :: _ =>
    match trText t with
    | .error e => .error e
    | .ok _ => .error .typeErr

/-- The batch loop of `translate_srt` (lines 68-85): translate the texts of
each batch, then zip the translated texts back onto the batch records
positionally (lines 78-85), accumulating across batches. -/
def batches_run (trText : String → Except PyErr String) :
    List (List Subtitle) → Except PyErr (List Subtitle)
  | [] => .ok []
  | batch :: more =>
    match texts_run trText (batch.map (fun sub => sub.text)) with
    | .error e => .error e
    | .ok translatedBatch =>
      match batches_run trText more with
      | .error e => .error e
      | .ok restOut =>
        .ok ((translatedBatch.zip batch).map
              (fun p => { p.2 with text := p.1 }) ++ restOut)

/-- `SubtitleTranslator.translate_srt` (lines 62-91) as executed: parse,
translate batch by batch, re-encode.  The oracle gives, per text and per
attempt number, the external translator's answer (`none` = the call raises).
Any `TypeError` from the awaited `time.sleep` propagates (the
`except`/`raise` at lines 89-91 re-raises it). -/
def translate_srt_run (oracle : String → Nat → Option String)
    (maxRetries bs : Nat) (content : String) : Except PyErr String :=
  match batches_run (fun t => translate_text_run (oracle t) maxRetries t)
      (toBatches bs (parse_srt content)) with
  | .ok out => .ok (create_srt out)
  | .error e => .error e

/-- The sequence of texts handed to `translate_text` by `translate_srt`
(lines 70-74), in order: the concatenation of each batch's `batch_texts`. -/
def translate_srt_texts (bs : Nat) (subs : List Subtitle) : List String :=
  ((toBatches bs subs).map (fun batch => batch.map (fun sub => sub.text))).flatten

/-- The suggested filename attached to the reply document
(`translate_command`, line 147): `f"traducido_{dest_lang}.srt"`. -/
def translate_filename (destLang : String) : String :=
  "traducido_" ++ destLang ++ ".srt"

/-! ## Derived notions used by the claims -/

/-- Exact shape `\d{2}:\d{2}:\d{2},\d{3}` (twelve characters). -/
def tsShape : List Char → Bool
  | [d1, d2, c1, d3, d4, c2, d5, d6, c3, d7, d8, d9] =>
    d1.isDigit && d2.isDigit && c1 = ':' && d3.isDigit && d4.isDigit &&
    c2 = ':' && d5.isDigit && d6.isDigit && c3 = ',' &&
    d7.isDigit && d8.isDigit && d9.isDigit
  | _ => false

/-- The well-formedness invariant of records produced by `parse_srt`. -/
def wfSub (r : Subtitle) : Prop :=
  r.index.toList ≠ [] ∧ (∀ c ∈ r.index.toList, c.isDigit = true) ∧
  tsShape r.start.toList = true ∧ tsShape r.«end».toList = true ∧
  r.text.toList ≠ [] ∧ '\n' ∉ r.text.toList

instance (r : Subtitle) : Decidable (wfSub r) := by
  unfold wfSub; infer_instance

/-- Some position of the input matches the block pattern. -/
def hasMatchB : List Char → Bool
  | [] => false
  | c :: rest => (matchBlock (c :: rest)).isSome || hasMatchB rest

/-- Apply `f` to the last element of a list only. -/
def mapLast (f : Subtitle → Subtitle) : List Subtitle → List Subtitle
  | [] => []
  | [r] => [f r]
  | r :: rest => r :: mapLast f rest

/-- `'\n'.join` on the text lines of one block. -/
def joinLines : List (List Char) → List Char
  | [] => []
  | [l] => l
  | l :: ls => l ++ '\n' :: joinLines ls

/-- `' '.join` on the text lines of one block. -/
def joinSpaces : List (List Char) → List Char
  | [] => []
  | [l] => l
  | l :: ls => l ++ ' ' :: joinSpaces ls

/-- No position of the list carries a newline that is followed by another
newline or by the end of the list: appending anything for which the
lookahead holds, the lookahead cannot fire strictly inside the list. -/
def noStopMid : List Char → Bool
  | [] => true
  | c :: rest => !(c = '\n' && (rest.headD ' ' = '\n' || rest.isEmpty)) && noStopMid rest

/-! ## Lemmas about the lookahead and the lazy text group -/

theorem stopHere_cons_ne {c : Char} (xs : List Char) (h : c ≠ '\n') :
    stopHere (c :: xs) = false := by
  cases xs with
  | nil => rfl
  | cons d ds => simp [stopHere, h]

theorem stopHere_nlnl (xs : List Char) : stopHere ('\n' :: '\n' :: xs) = true := rfl

theorem noStopMid_cons {c : Char} {t : List Char} (h : noStopMid (c :: t) = true) :
    noStopMid t = true := by
  simp only [noStopMid, Bool.and_eq_true] at h
  exact h.2

theorem noStopMid_of_no_nl : ∀ {t : List Char}, '\n' ∉ t → noStopMid t = true := by
  intro t
  induction t with
  | nil => intro _; rfl
  | cons c rest ih =>
    intro h
    have hc : c ≠ '\n' := fun hc => h (hc ▸ List.mem_cons_self c rest)
    have hr : '\n' ∉ rest := fun hr => h (List.mem_cons_of_mem c hr)
    simp [noStopMid, hc, ih hr]

theorem stopHere_append_false {t : List Char} (rest : List Char)
    (hne : t ≠ []) (h : noStopMid t = true) : stopHere (t ++ rest) = false := by
  match t, hne with
  | [c], _ =>
    have hc : c ≠ '\n' := by
      simp only [noStopMid, List.headD, List.isEmpty_nil, Bool.or_true,
        Bool.and_true, Bool.not_eq_eq_eq_not, Bool.not_true, Bool.and_eq_true,
        decide_eq_false_iff_not] at h
      intro hc
      simp [hc] at h
    exact stopHere_cons_ne _ hc
  | c :: d :: t', _ =>
    by_cases hc : c = '\n'
    · subst hc
      have hd : d ≠ '\n' := by
        simp only [noStopMid, List.headD_cons, List.isEmpty_cons, Bool.or_false,
          Bool.and_eq_true, Bool.not_eq_eq_eq_not, Bool.not_true, decide_True,
          Bool.true_and] at h
        intro hd
        simp [hd] at h
      simp [stopHere, hd]
    · exact stopHere_cons_ne _ hc

theorem lazyText_cons (c : Char) (rest : List Char) :
    lazyText (c :: rest) =
      if stopHere rest then some ([c], rest)
      else (lazyText rest).map (fun p => (c :: p.1, p.2)) := rfl

theorem lazyText_exact : ∀ {t : List Char} (rest : List Char), t ≠ [] →
    noStopMid t = true → stopHere rest = true →
    lazyText (t ++ rest) = some (t, rest) := by
  intro t
  induction t with
  | nil => intro rest h; exact absurd rfl h
  | cons c t' ih =>
    intro rest _ hmid hstop
    cases t' with
    | nil => simp [lazyText, hstop]
    | cons d t'' =>
      have hmid' : noStopMid (d :: t'') = true := noStopMid_cons hmid
      have hstop' : stopHere (d :: (t'' ++ rest)) = false := by
        have h0 := stopHere_append_false rest (t := d :: t'') (by simp) hmid'
        rwa [List.cons_append] at h0
      have hih := ih rest (by simp) hmid' hstop
      rw [List.cons_append] at hih
      rw [List.cons_append, lazyText_cons, List.cons_append, hstop']
      simp [hih]

theorem lazyText_last : ∀ {t : List Char}, t ≠ [] → '\n' ∉ t →
    lazyText (t ++ ['\n']) = some (t ++ ['\n'], []) := by
  intro t
  induction t with
  | nil => intro h; exact absurd rfl h
  | cons c t' ih =>
    intro _ hnl
    have hc : c ≠ '\n' := fun hc => hnl (hc ▸ List.mem_cons_self c t')
    have hnl' : '\n' ∉ t' := fun h => hnl (List.mem_cons_of_mem c h)
    cases t' with
    | nil => rfl
    | cons d t'' =>
      have hd : d ≠ '\n' := fun hd => hnl' (hd ▸ List.mem_cons_self d t'')
      have hstop : stopHere (d :: (t'' ++ ['\n'])) = false := stopHere_cons_ne _ hd
      have hih := ih (by simp) hnl'
      rw [List.cons_append] at hih
      rw [List.cons_append, lazyText_cons, List.cons_append, hstop]
      simp [hih]

theorem lazyText_decomp : ∀ {cs t r : List Char}, lazyText cs = some (t, r) →
    cs = t ++ r ∧ t ≠ [] := by
  intro cs
  induction cs with
  | nil => intro t r h; simp [lazyText] at h
  | cons c rest ih =>
    intro t r h
    by_cases hs : stopHere rest = true
    · simp [lazyText, hs] at h
      obtain ⟨ht, hr⟩ := h
      subst ht; subst hr
      simp
    · simp only [lazyText, Bool.not_eq_true] at hs
      simp only [lazyText, hs, Bool.false_eq_true, if_false, Option.map_eq_some'] at h
      obtain ⟨⟨t', r'⟩, hlz, hpair⟩ := h
      obtain ⟨h1, h2⟩ := ih hlz
      simp only [Prod.mk.injEq] at hpair
      obtain ⟨ht, hr⟩ := hpair
      subst ht; subst hr
      simp [h1]

/-! ## Lemmas about the timestamp and literal readers -/

theorem readLit_some {x : Char} : ∀ {cs r : List Char}, readLit x cs = some r →
    cs = x :: r := by
  intro cs r h
  cases cs with
  | nil => simp [readLit] at h
  | cons c rest =>
    simp only [readLit] at h
    by_cases hc : c = x
    · subst hc
      simp at h
      rw [h]
    · simp [hc] at h

theorem read2d_some : ∀ {cs : List Char} {a b : Char} {r : List Char},
    read2d cs = some (a, b, r) →
    cs = a :: b :: r ∧ a.isDigit = true ∧ b.isDigit = true := by
  intro cs a b r h
  match cs with
  | [] => simp [read2d] at h
  | [c] => simp [read2d] at h
  | c1 :: c2 :: rest =>
    simp only [read2d] at h
    split at h
    case isTrue hd =>
      simp only [Option.some.injEq, Prod.mk.injEq] at h
      obtain ⟨ha, hb, hr⟩ := h
      subst ha; subst hb; subst hr
      simp only [Bool.and_eq_true] at hd
      exact ⟨rfl, hd.1, hd.2⟩
    case isFalse hd => simp at h

theorem read3d_some : ∀ {cs : List Char} {a b c : Char} {r : List Char},
    read3d cs = some (a, b, c, r) →
    cs = a :: b :: c :: r ∧ a.isDigit = true ∧ b.isDigit = true ∧ c.isDigit = true := by
  intro cs a b c r h
  match cs with
  | [] => simp [read3d] at h
  | [x] => simp [read3d] at h
  | [x, y] => simp [read3d] at h
  | c1 :: c2 :: c3 :: rest =>
    simp only [read3d] at h
    split at h
    case isTrue hd =>
      simp only [Option.some.injEq, Prod.mk.injEq] at h
      obtain ⟨ha, hb, hc, hr⟩ := h
      subst ha; subst hb; subst hc; subst hr
      simp only [Bool.and_eq_true] at hd
      exact ⟨rfl, hd.1.1, hd.1.2, hd.2⟩
    case isFalse hd => simp at h

theorem readTS_some : ∀ {cs ts r : List Char}, readTS cs = some (ts, r) →
    cs = ts ++ r ∧ tsShape ts = true := by
  intro cs ts r h
  simp only [readTS, bind, Option.bind_eq_some, pure, Option.some.injEq,
    Prod.mk.injEq] at h
  obtain ⟨⟨d1, d2, r1⟩, h1, ⟨r2, h2, ⟨⟨d3, d4, r3⟩, h3, ⟨r4, h4,
    ⟨⟨d5, d6, r5⟩, h5, ⟨r6, h6, ⟨⟨d7, d8, d9, r7⟩, h7, hts, hr⟩⟩⟩⟩⟩⟩⟩ := h
  obtain ⟨e1, hd1, hd2⟩ := read2d_some h1
  have e2 := readLit_some h2
  obtain ⟨e3, hd3, hd4⟩ := read2d_some h3
  have e4 := readLit_some h4
  obtain ⟨e5, hd5, hd6⟩ := read2d_some h5
  have e6 := readLit_some h6
  obtain ⟨e7, hd7, hd8, hd9⟩ := read3d_some h7
  subst hts; subst hr
  subst e1; subst e2; subst e3; subst e4; subst e5; subst e6; subst e7
  refine ⟨rfl, ?_⟩
  simp [tsShape, hd1, hd2, hd3, hd4, hd5, hd6, hd7, hd8, hd9]

theorem readArrow_some : ∀ {cs r : List Char}, readArrow cs = some r →
    cs = ' ' :: '-' :: '-' :: '>' :: ' ' :: r := by
  intro cs r h
  simp only [readArrow, bind, Option.bind_eq_some] at h
  obtain ⟨r1, h1, ⟨r2, h2, ⟨r3, h3, ⟨r4, h4, h5⟩⟩⟩⟩ := h
  have e1 := readLit_some h1
  have e2 := readLit_some h2
  have e3 := readLit_some h3
  have e4 := readLit_some h4
  have e5 := readLit_some h5
  subst e1; subst e2; subst e3; subst e4; subst e5
  rfl

theorem tsShape_parts : ∀ {ts : List Char}, tsShape ts = true →
    ∃ d1 d2 d3 d4 d5 d6 d7 d8 d9 : Char,
      ts = [d1, d2, ':', d3, d4, ':', d5, d6, ',', d7, d8, d9] ∧
      d1.isDigit = true ∧ d2.isDigit = true ∧ d3.isDigit = true ∧
      d4.isDigit = true ∧ d5.isDigit = true ∧ d6.isDigit = true ∧
      d7.isDigit = true ∧ d8.isDigit = true ∧ d9.isDigit = true := by
  intro ts h
  match ts, h with
  | [d1, d2, c1, d3, d4, c2, d5, d6, c3, d7, d8, d9], h =>
    simp only [tsShape, Bool.and_eq_true, decide_eq_true_eq, and_assoc] at h
    obtain ⟨h1, h2, hc1, h3, h4, hc2, h5, h6, hc3, h7, h8, h9⟩ := h
    subst hc1; subst hc2; subst hc3
    exact ⟨d1, d2, d3, d4, d5, d6, d7, d8, d9, rfl, h1, h2, h3, h4, h5, h6, h7, h8, h9⟩

theorem readTS_exact {ts : List Char} (rest : List Char) (h : tsShape ts = true) :
    readTS (ts ++ rest) = some (ts, rest) := by
  obtain ⟨d1, d2, d3, d4, d5, d6, d7, d8, d9, hts,
    h1, h2, h3, h4, h5, h6, h7, h8, h9⟩ := tsShape_parts h
  subst hts
  simp [readTS, read2d, read3d, readLit, h1, h2, h3, h4, h5, h6, h7, h8, h9]

/-! ## Lemmas about `matchBlock` -/

theorem digits_takeWhile {idx : List Char} (R : List Char)
    (hd : ∀ c ∈ idx, c.isDigit = true) :
    (idx ++ '\n' :: R).takeWhile Char.isDigit = idx ∧
    (idx ++ '\n' :: R).dropWhile Char.isDigit = '\n' :: R := by
  induction idx with
  | nil =>
    constructor
    · simp [List.takeWhile]
    · simp [List.dropWhile]
  | cons c idx' ih =>
    have hc : c.isDigit = true := hd c (List.mem_cons_self c idx')
    have hd' : ∀ x ∈ idx', x.isDigit = true := fun x hx => hd x (List.mem_cons_of_mem c hx)
    obtain ⟨ht, hdrp⟩ := ih hd'
    constructor
    · simp [List.takeWhile_cons, hc, ht]
    · simp [List.dropWhile_cons, hc, hdrp]

theorem map_subNl_no_nl {t : List Char} (h : '\n' ∉ t) : t.map subNl = t := by
  induction t with
  | nil => rfl
  | cons c rest ih =>
    have hc : c ≠ '\n' := fun hc => h (hc ▸ List.mem_cons_self c rest)
    have hr : '\n' ∉ rest := fun hr => h (List.mem_cons_of_mem c hr)
    simp [subNl, hc, ih hr]

theorem no_nl_map_subNl (t : List Char) : '\n' ∉ t.map subNl := by
  intro hmem
  obtain ⟨c, _, hc⟩ := List.mem_map.mp hmem
  unfold subNl at hc
  by_cases h : c = '\n'
  · rw [if_pos h] at hc
    exact absurd hc (by decide)
  · rw [if_neg h] at hc
    exact h hc

/-- `matchBlock` on an assembled block: index digits, newline, timestamp,
arrow, timestamp, newline, then whatever the lazy text group makes of the
remainder. -/
theorem matchBlock_assembled (idx ts1 ts2 rest0 : List Char)
    (hidx : idx ≠ []) (hd : ∀ c ∈ idx, c.isDigit = true)
    (h1 : tsShape ts1 = true) (h2 : tsShape ts2 = true) :
    matchBlock (idx ++ '\n' :: (ts1 ++ ' ' :: '-' :: '-' :: '>' :: ' ' ::
        (ts2 ++ '\n' :: rest0)))
      = (lazyText rest0).map (fun p =>
          (⟨idx.asString, ts1.asString, ts2.asString, (p.1.map subNl).asString⟩, p.2)) := by
  obtain ⟨ht, hdrp⟩ := digits_takeWhile (ts1 ++ ' ' :: '-' :: '-' :: '>' :: ' ' ::
    (ts2 ++ '\n' :: rest0)) hd
  rw [matchBlock]
  simp only [ht, hdrp, if_neg hidx]
  have e1 : readLit '\n' ('\n' :: (ts1 ++ ' ' :: '-' :: '-' :: '>' :: ' ' ::
      (ts2 ++ '\n' :: rest0))) = some (ts1 ++ ' ' :: '-' :: '-' :: '>' :: ' ' ::
      (ts2 ++ '\n' :: rest0)) := by simp [readLit]
  have e2 := readTS_exact (' ' :: '-' :: '-' :: '>' :: ' ' :: (ts2 ++ '\n' :: rest0)) h1
  have e3 : readArrow (' ' :: '-' :: '-' :: '>' :: ' ' :: (ts2 ++ '\n' :: rest0))
      = some (ts2 ++ '\n' :: rest0) := by simp [readArrow, readLit]
  have e4 := readTS_exact ('\n' :: rest0) h2
  have e5 : readLit '\n' ('\n' :: rest0) = some rest0 := by simp [readLit]
  rw [e1]
  simp only [Option.bind_eq_bind, Option.some_bind]
  rw [e2]
  simp only [Option.some_bind]
  rw [e3]
  simp only [Option.some_bind]
  rw [e4]
  simp only [Option.some_bind]
  rw [e5]
  simp only [Option.some_bind]
  cases hlz : lazyText rest0 with
  | none => rfl
  | some p => rfl

/-- Successful `matchBlock` output is well-formed and consumes at least one
character. -/
theorem matchBlock_some : ∀ {cs : List Char} {sub : Subtitle} {after : List Char},
    matchBlock cs = some (sub, after) → wfSub sub ∧ after.length < cs.length := by
  intro cs sub after h
  rw [matchBlock] at h
  split at h
  · exact absurd h (by simp)
  · rename_i hidx
    simp only [bind, Option.bind_eq_some, pure, Option.some.injEq,
      Prod.mk.injEq] at h
    obtain ⟨r1, h1, ⟨⟨ts1, r2⟩, h2, ⟨r3, h3, ⟨⟨ts2, r4⟩, h4, ⟨r5, h5,
      ⟨⟨t, aft⟩, h6, hsub, haft⟩⟩⟩⟩⟩⟩ := h
    dsimp only at h3 h5 hsub
    have e1 := readLit_some h1
    obtain ⟨e2, hts1⟩ := readTS_some h2
    have e3 := readArrow_some h3
    obtain ⟨e4, hts2⟩ := readTS_some h4
    have e5 := readLit_some h5
    obtain ⟨e6, htne⟩ := lazyText_decomp h6
    subst haft
    have hcs : cs = cs.takeWhile Char.isDigit ++ cs.dropWhile Char.isDigit :=
      (List.takeWhile_append_dropWhile Char.isDigit cs).symm
    constructor
    · subst hsub
      refine ⟨?_, ?_, ?_, ?_, ?_, ?_⟩
      · show ¬(List.takeWhile Char.isDigit cs).asString.toList = []
        rw [show ∀ l : List Char, (List.asString l).toList = l from fun _ => rfl]
        exact hidx
      · intro c hc
        rw [show ∀ l : List Char, (List.asString l).toList = l from fun _ => rfl] at hc
        exact List.mem_takeWhile_imp hc
      · show tsShape (List.asString ts1).toList = true
        exact hts1
      · show tsShape (List.asString ts2).toList = true
        exact hts2
      · show ¬(List.asString (t.map subNl)).toList = []
        rw [show ∀ l : List Char, (List.asString l).toList = l from fun _ => rfl]
        simpa using htne
      · show '\n' ∉ (List.asString (t.map subNl)).toList
        rw [show ∀ l : List Char, (List.asString l).toList = l from fun _ => rfl]
        exact no_nl_map_subNl t
    · have htl : 0 < t.length := List.length_pos.mpr htne
      rw [hcs, e1, e2, e3, e4, e5, e6]
      simp only [List.length_append, List.length_cons]
      omega

/-! ## Lemmas about the scanner -/

theorem matchBlock_nil : matchBlock [] = none := rfl

theorem matchBlock_nl (cs : List Char) : matchBlock ('\n' :: cs) = none := rfl

theorem scanAux_nil (fuel : Nat) : scanAux fuel [] = [] := by
  cases fuel <;> rfl

theorem scanAux_congr : ∀ (f g : Nat) (cs : List Char),
    cs.length ≤ f → cs.length ≤ g → scanAux f cs = scanAux g cs := by
  intro f
  induction f with
  | zero =>
    intro g cs hf _
    have : cs = [] := List.eq_nil_of_length_eq_zero (Nat.le_zero.mp hf)
    subst this
    rw [scanAux_nil, scanAux_nil]
  | succ f ih =>
    intro g cs hf hg
    cases cs with
    | nil => rw [scanAux_nil, scanAux_nil]
    | cons c rest =>
      cases g with
      | zero => simp at hg
      | succ g' =>
        simp only [List.length_cons, Nat.succ_le_succ_iff] at hf hg
        show scanAux (f + 1) (c :: rest) = scanAux (g' + 1) (c :: rest)
        simp only [scanAux]
        cases hm : matchBlock (c :: rest) with
        | none =>
          dsimp only
          exact ih g' rest hf hg
        | some p =>
          obtain ⟨sub, after⟩ := p
          dsimp only
          have hlen : after.length < rest.length + 1 := (matchBlock_some hm).2
          rw [ih g' after (by omega) (by omega)]

theorem scanList_matched {cs : List Char} {sub : Subtitle} {after : List Char}
    (h : matchBlock cs = some (sub, after)) :
    scanList cs = sub :: scanList after := by
  cases cs with
  | nil => rw [matchBlock_nil] at h; exact absurd h (by simp)
  | cons c rest =>
    have hlen : after.length < rest.length + 1 := (matchBlock_some h).2
    show scanAux (rest.length + 1) (c :: rest) = sub :: scanList after
    simp only [scanAux, h]
    rw [scanAux_congr rest.length after.length after (by omega) (by omega)]
    rfl

theorem scanList_skip {c : Char} {rest : List Char}
    (h : matchBlock (c :: rest) = none) :
    scanList (c :: rest) = scanList rest := by
  show scanAux (rest.length + 1) (c :: rest) = scanList rest
  simp only [scanAux, h]
  rfl

theorem scanList_skip_front : ∀ (pre cs : List Char),
    (∀ n, n < pre.length → matchBlock (pre.drop n ++ cs) = none) →
    scanList (pre ++ cs) = scanList cs := by
  intro pre
  induction pre with
  | nil => intro cs _; rfl
  | cons c pre' ih =>
    intro cs h
    have h0 : matchBlock (c :: (pre' ++ cs)) = none := by
      have := h 0 (by simp)
      simpa using this
    rw [List.cons_append, scanList_skip h0]
    exact ih cs (fun n hn => by
      have := h (n + 1) (by simpa using Nat.succ_lt_succ hn)
      simpa using this)

theorem scanAux_wf : ∀ (fuel : Nat) (cs : List Char) (r : Subtitle),
    r ∈ scanAux fuel cs → wfSub r := by
  intro fuel
  induction fuel with
  | zero => intro cs r h; simp [scanAux] at h
  | succ fuel ih =>
    intro cs r h
    cases cs with
    | nil => simp [scanAux] at h
    | cons c rest =>
      simp only [scanAux] at h
      cases hm : matchBlock (c :: rest) with
      | none =>
        rw [hm] at h
        exact ih rest r h
      | some p =>
        obtain ⟨sub, after⟩ := p
        rw [hm] at h
        rcases List.mem_cons.mp h with h | h
        · exact h ▸ (matchBlock_some hm).1
        · exact ih after r h

theorem parse_srt_wf {s : String} {r : Subtitle} (h : r ∈ parse_srt s) : wfSub r :=
  scanAux_wf _ _ r h

theorem stripBOM_cons {c : Char} (rest : List Char) (h : c ≠ '﻿') :
    stripBOM (c :: rest) = c :: rest := by
  simp [stripBOM, h]

theorem digit_ne_bom {c : Char} (h : c.isDigit = true) : c ≠ '﻿' := by
  intro hc
  subst hc
  exact absurd h (by decide)

/-! ## Lemmas about re-encoding -/

theorem toList_append (a b : String) : (a ++ b).toList = a.toList ++ b.toList := rfl

theorem asString_toList (s : String) : s.toList.asString = s := rfl

theorem asString_append (a b : List Char) :
    (a ++ b).asString = a.asString ++ b.asString := rfl

theorem blockStr_toList (r : Subtitle) :
    (blockStr r).toList
      = r.index.toList ++ '\n' :: (r.start.toList ++ ' ' :: '-' :: '-' :: '>' :: ' ' ::
        (r.«end».toList ++ '\n' :: (r.text.toList ++ ['\n']))) := by
  have h1 : "\n".toList = ['\n'] := rfl
  have h2 : " --> ".toList = [' ', '-', '-', '>', ' '] := rfl
  simp [blockStr, toList_append, h1, h2, List.append_assoc]

theorem create_srt_cons (r : Subtitle) {l : List Subtitle} (h : l ≠ []) :
    create_srt (r :: l) = blockStr r ++ "\n" ++ create_srt l := by
  cases l with
  | nil => exact absurd rfl h
  | cons r2 l' => rfl

theorem mapLast_cons (f : Subtitle → Subtitle) (r : Subtitle) {l : List Subtitle}
    (h : l ≠ []) : mapLast f (r :: l) = r :: mapLast f l := by
  cases l with
  | nil => exact absurd rfl h
  | cons r2 l' => rfl

theorem matchBlock_wf_mid (r : Subtitle) (h : wfSub r) (rest : List Char) :
    matchBlock (r.index.toList ++ '\n' :: (r.start.toList ++ ' ' :: '-' :: '-' :: '>' :: ' ' ::
        (r.«end».toList ++ '\n' :: (r.text.toList ++ '\n' :: '\n' :: rest))))
      = some (r, '\n' :: '\n' :: rest) := by
  obtain ⟨hine, hid, hts1, hts2, htne, htnl⟩ := h
  rw [matchBlock_assembled _ _ _ _ hine hid hts1 hts2]
  rw [lazyText_exact ('\n' :: '\n' :: rest) htne (noStopMid_of_no_nl htnl)
    (stopHere_nlnl rest)]
  simp only [Option.map_some']
  rw [map_subNl_no_nl htnl]
  simp only [asString_toList]

theorem matchBlock_wf_last (r : Subtitle) (h : wfSub r) :
    matchBlock (r.index.toList ++ '\n' :: (r.start.toList ++ ' ' :: '-' :: '-' :: '>' :: ' ' ::
        (r.«end».toList ++ '\n' :: (r.text.toList ++ ['\n']))))
      = some ({ r with text := r.text ++ " " }, []) := by
  obtain ⟨hine, hid, hts1, hts2, htne, htnl⟩ := h
  rw [matchBlock_assembled _ _ _ _ hine hid hts1 hts2]
  rw [lazyText_last htne htnl]
  simp only [Option.map_some']
  rw [List.map_append, map_subNl_no_nl htnl]
  have hnl : ['\n'].map subNl = [' '] := rfl
  rw [hnl, asString_append]
  simp only [asString_toList]
  rfl

theorem scanList_nil : scanList [] = [] := rfl

theorem scanList_encode : ∀ (l : List Subtitle), l ≠ [] → (∀ r ∈ l, wfSub r) →
    scanList (create_srt l).toList
      = mapLast (fun r => { r with text := r.text ++ " " }) l := by
  intro l
  induction l with
  | nil => intro h; exact absurd rfl h
  | cons r l' ih =>
    intro _ hwf
    have hr : wfSub r := hwf r (List.mem_cons_self r l')
    cases l' with
    | nil =>
      have hshape : (create_srt [r]).toList
          = r.index.toList ++ '\n' :: (r.start.toList ++ ' ' :: '-' :: '-' :: '>' :: ' ' ::
            (r.«end».toList ++ '\n' :: (r.text.toList ++ ['\n']))) := by
        show (joinNl [blockStr r]).toList = _
        rw [show joinNl [blockStr r] = blockStr r from rfl]
        exact blockStr_toList r
      rw [hshape, scanList_matched (matchBlock_wf_last r hr), scanList_nil]
      rfl
    | cons r2 l'' =>
      have hle : (r2 :: l'') ≠ [] := by simp
      have hshape : (create_srt (r :: r2 :: l'')).toList
          = r.index.toList ++ '\n' :: (r.start.toList ++ ' ' :: '-' :: '-' :: '>' :: ' ' ::
            (r.«end».toList ++ '\n' :: (r.text.toList ++ '\n' :: '\n' ::
              (create_srt (r2 :: l'')).toList))) := by
        rw [create_srt_cons r hle, toList_append, toList_append, blockStr_toList]
        have h1 : "\n".toList = ['\n'] := rfl
        simp [h1, List.append_assoc]
      rw [hshape, scanList_matched (matchBlock_wf_mid r hr _),
        scanList_skip (matchBlock_nl _), scanList_skip (matchBlock_nl _)]
      rw [ih hle (fun x hx => hwf x (List.mem_cons_of_mem r hx))]
      rw [mapLast_cons _ r hle]

/-! ## Lemmas for the no-match claims -/

theorem scanList_of_no_match : ∀ {cs : List Char}, hasMatchB cs = false →
    scanList cs = [] := by
  intro cs
  induction cs with
  | nil => intro _; rfl
  | cons c rest ih =>
    intro h
    simp only [hasMatchB, Bool.or_eq_false_iff] at h
    cases hm : matchBlock (c :: rest) with
    | some p =>
      rw [hm] at h
      simp at h
    | none =>
      rw [scanList_skip hm]
      exact ih h.2

/-! ## Lemmas about multi-line text blocks -/

theorem toList_asString (l : List Char) : (List.asString l).toList = l := rfl

theorem noStopMid_line_append {l : List Char} (hl : '\n' ∉ l) {tail : List Char}
    (htail : noStopMid tail = true) (hne : tail ≠ []) (hhd : tail.headD ' ' ≠ '\n') :
    noStopMid (l ++ '\n' :: tail) = true := by
  induction l with
  | nil =>
    cases tail with
    | nil => exact absurd rfl hne
    | cons d ds =>
      simp only [List.headD_cons] at hhd
      show noStopMid ('\n' :: d :: ds) = true
      rw [noStopMid]
      simp [hhd, htail]
  | cons c l' ih =>
    have hc : c ≠ '\n' := fun hc => hl (hc ▸ List.mem_cons_self c l')
    have hl' : '\n' ∉ l' := fun hx => hl (List.mem_cons_of_mem c hx)
    simp [noStopMid, hc, ih hl']

theorem joinLines_ne_nil : ∀ {ls : List (List Char)}, ls ≠ [] →
    (∀ l ∈ ls, l ≠ []) → joinLines ls ≠ [] := by
  intro ls h0 hl
  match ls with
  | [l] => exact hl l (List.mem_cons_self l [])
  | l :: l2 :: rest =>
    show l ++ '\n' :: joinLines (l2 :: rest) ≠ []
    simp

theorem joinLines_headD : ∀ {ls : List (List Char)}, ls ≠ [] →
    (∀ l ∈ ls, l ≠ [] ∧ '\n' ∉ l) → (joinLines ls).headD ' ' ≠ '\n' := by
  intro ls h0 hl
  match ls with
  | [l] =>
    obtain ⟨hne, hnl⟩ := hl l (List.mem_cons_self l [])
    cases l with
    | nil => exact absurd rfl hne
    | cons c cl =>
      simp only [joinLines, List.headD_cons]
      exact fun hc => hnl (hc ▸ List.mem_cons_self c cl)
  | l :: l2 :: rest =>
    obtain ⟨hne, hnl⟩ := hl l (List.mem_cons_self l (l2 :: rest))
    cases l with
    | nil => exact absurd rfl hne
    | cons c cl =>
      show ((c :: cl) ++ '\n' :: joinLines (l2 :: rest)).headD ' ' ≠ '\n'
      simp only [List.cons_append, List.headD_cons]
      exact fun hc => hnl (hc ▸ List.mem_cons_self c cl)

theorem noStopMid_joinLines : ∀ (ls : List (List Char)), ls ≠ [] →
    (∀ l ∈ ls, l ≠ [] ∧ '\n' ∉ l) → noStopMid (joinLines ls) = true := by
  intro ls
  induction ls with
  | nil => intro h; exact absurd rfl h
  | cons l ls' ih =>
    intro _ hl
    cases ls' with
    | nil =>
      show noStopMid l = true
      exact noStopMid_of_no_nl (hl l (List.mem_cons_self l [])).2
    | cons l2 rest =>
      show noStopMid (l ++ '\n' :: joinLines (l2 :: rest)) = true
      have hl' : ∀ x ∈ l2 :: rest, x ≠ [] ∧ '\n' ∉ x :=
        fun x hx => hl x (List.mem_cons_of_mem l hx)
      refine noStopMid_line_append (hl l (List.mem_cons_self l _)).2
        (ih (by simp) hl') ?_ ?_
      · exact joinLines_ne_nil (by simp) (fun x hx => (hl' x hx).1)
      · exact joinLines_headD (by simp) hl'

theorem map_subNl_joinLines : ∀ (ls : List (List Char)),
    (∀ l ∈ ls, '\n' ∉ l) → (joinLines ls).map subNl = joinSpaces ls := by
  intro ls
  induction ls with
  | nil => intro _; rfl
  | cons l ls' ih =>
    intro hl
    cases ls' with
    | nil =>
      show l.map subNl = l
      exact map_subNl_no_nl (hl l (List.mem_cons_self l []))
    | cons l2 rest =>
      show (l ++ '\n' :: joinLines (l2 :: rest)).map subNl
          = l ++ ' ' :: joinSpaces (l2 :: rest)
      rw [List.map_append, map_subNl_no_nl (hl l (List.mem_cons_self l _))]
      simp only [List.map_cons]
      rw [show subNl '\n' = ' ' from rfl,
        ih (fun x hx => hl x (List.mem_cons_of_mem l hx))]

/-! ## Auxiliary lemmas for the round-trip claim -/

theorem create_srt_head {r : Subtitle} (l' : List Subtitle) {c0 : Char}
    {idx' : List Char} (hidx : r.index.toList = c0 :: idx') :
    ((create_srt (r :: l')).toList).head? = some c0 := by
  cases l' with
  | nil =>
    rw [show create_srt [r] = blockStr r from rfl, blockStr_toList, hidx]
    simp
  | cons r2 l'' =>
    rw [create_srt_cons r (by simp), toList_append, toList_append,
      blockStr_toList, hidx]
    simp

theorem stripBOM_of_head {cs : List Char} {c : Char} (h : cs.head? = some c)
    (hc : c ≠ '﻿') : stripBOM cs = cs := by
  cases cs with
  | nil => simp at h
  | cons d ds =>
    simp only [List.head?_cons, Option.some.injEq] at h
    subst h
    exact stripBOM_cons ds hc

theorem stripBOM_create_srt {l : List Subtitle} (h0 : l ≠ [])
    (hwf : ∀ r ∈ l, wfSub r) :
    stripBOM (create_srt l).toList = (create_srt l).toList := by
  match l with
  | r :: l' =>
    obtain ⟨hine, hid, _, _, _, _⟩ := hwf r (List.mem_cons_self r l')
    cases hidx : r.index.toList with
    | nil => exact absurd hidx hine
    | cons c0 idx' =>
      have hc0 : c0.isDigit = true := hid c0 (by rw [hidx]; exact List.mem_cons_self _ _)
      exact stripBOM_of_head (create_srt_head l' hidx) (digit_ne_bom hc0)

/-! ## The claims -/

/-- C1 (`functional_correctness`): the claim says `Translate` returns a
sequence of the same length and order with only `text` replaced, for every
input record sequence and batch size.  The code cannot do so for any
non-empty input: after the first successfully translated text,
`translate_srt` executes `await sleep(random.uniform(0.5, 1.5))` (line 76)
with `sleep = time.sleep`, which returns `None`; awaiting `None` raises
`TypeError`, so the job aborts without returning any sequence — here shown
on a one-record input with a translator that always succeeds. -/
theorem C1_translate_srt_raises_despite_success :
    (parse_srt "1\n00:00:01,000 --> 00:00:02,500\nHola").length = 1 ∧
    translate_srt_run (fun _ _ => some "Hello") max_retries batch_size
      "1\n00:00:01,000 --> 00:00:02,500\nHola" = .error .typeErr := by
  constructor
  · decide
  · rfl

/-- C2 (counterexample): the round trip `Decode (Encode (Decode x))` differs
from `Decode x` already on a single well-formed record: the final block's
lazy text group can only stop at `\Z`, which is *after* the trailing newline
written by `Encode`, so the final record's text gains a space. -/
theorem C2_counterexample :
    (parse_srt "1\n00:00:01,000 --> 00:00:02,500\nHola").length = 1 ∧
    parse_srt (create_srt (parse_srt "1\n00:00:01,000 --> 00:00:02,500\nHola"))
      ≠ parse_srt "1\n00:00:01,000 --> 00:00:02,500\nHola" := by
  constructor
  · decide
  · decide

/-- C2 (amended): for every byte sequence whose decoding yields at least one
record, `Decode (Encode (Decode x))` equals `Decode x` on every record and
every field, except that the *last* record's `text` gains exactly one
trailing space per round trip (so the round trip is not stable). -/
theorem C2_roundtrip_amended (x : String) (h : parse_srt x ≠ []) :
    parse_srt (create_srt (parse_srt x))
      = mapLast (fun r => { r with text := r.text ++ " " }) (parse_srt x) := by
  have hwf : ∀ r ∈ parse_srt x, wfSub r := fun r hr => parse_srt_wf hr
  show scanList (stripBOM (create_srt (parse_srt x)).toList) = _
  rw [stripBOM_create_srt h hwf]
  exact scanList_encode (parse_srt x) h hwf

/-- Witness for C2 (amended) at a concrete one-record input. -/
theorem C2_amended_witness :
    parse_srt "1\n00:00:01,000 --> 00:00:02,500\nHola" ≠ [] ∧
    parse_srt (create_srt (parse_srt "1\n00:00:01,000 --> 00:00:02,500\nHola"))
      = mapLast (fun r => { r with text := r.text ++ " " })
          (parse_srt "1\n00:00:01,000 --> 00:00:02,500\nHola") :=
  ⟨by decide, C2_roundtrip_amended "1\n00:00:01,000 --> 00:00:02,500\nHola" (by decide)⟩

/-- C3 (`error_handling`): the claim says that when the translator fails on
every call, `Translate` completes with the original texts and no job-level
error.  In the code the first failed attempt reaches
`await sleep(self.retry_delay * (attempt + 1))` (line 34) inside the
`except` handler; `sleep` is `time.sleep`, whose `None` result cannot be
awaited, so a `TypeError` propagates and `translate_srt` re-raises it
(line 91): the job errors instead of falling back to the original text. -/
theorem C3_identity_fallback_crashes :
    translate_text_run (fun _ => none) max_retries "Hola" = .error .typeErr ∧
    translate_srt_run (fun _ _ => none) max_retries batch_size
      "1\n00:00:01,000 --> 00:00:02,500\nHola" = .error .typeErr := by
  constructor
  · rfl
  · rfl

/-- C4 (`functional_correctness`): the claim describes the per-text retry
policy (up to `max_retries` attempts with linear backoff between failed
attempts).  The code returns the translator's result when the first attempt
succeeds, but a failed attempt with a retry still to go raises `TypeError`
at `await sleep(...)` (line 34, `sleep = time.sleep`) — after blocking in
`time.sleep` — so no second attempt is ever made. -/
theorem C4_retry_backoff_crashes :
    translate_text_run (fun _ => some "Hello") max_retries "Hola" = .ok "Hello" ∧
    translate_text_run (fun n => if n = 0 then none else some "Hello") max_retries "Hola"
      = .error .typeErr := by
  constructor
  · rfl
  · rfl

/-- C5 (counterexample): on an input in which no block matches, `parse_srt`
returns normally with the empty record list; no `FormatError` (or any error)
exists in the code, so "fails with FormatError if no records match" is
false. -/
theorem C5_counterexample : parse_srt "no subtitle blocks here" = [] := by decide

/-- C5 (amended): when no position of the (BOM-stripped) input matches the
block pattern, `Decode` returns the empty record sequence — a normal return,
not a `FormatError`. -/
theorem C5_empty_decode (s : String) (h : hasMatchB (stripBOM s.toList) = false) :
    parse_srt s = [] :=
  scanList_of_no_match h

/-- Witness for C5 (amended). -/
theorem C5_amended_witness :
    hasMatchB (stripBOM "hello".toList) = false ∧ parse_srt "hello" = [] :=
  ⟨by decide, C5_empty_decode "hello" (by decide)⟩

/-- C6 (counterexample): a malformed block whose index line contains a
non-digit is *not* always omitted: with index line `a1` the pattern matches
starting at the `1`, so the malformed block yields a record (with index
`"1"`) instead of being skipped. -/
theorem C6_counterexample :
    parse_srt "a1\n00:00:00,000 --> 00:00:01,000\nfoo"
      = [⟨"1", "00:00:00,000", "00:00:01,000", "foo"⟩] := by decide

/-- C6 (amended): `Decode` never raises on malformed input (it is a total
function), but a malformed block is omitted exactly when *no position inside
it*, taken together with what follows, matches the block pattern.  In full
generality: any front segment of the input none of whose positions starts a
pattern match is skipped wholesale, and the remainder — whatever it is —
decodes exactly as it would on its own, so every well-formed block after it
still decodes.  A malformed block that does contain a matchable sub-pattern
is *not* omitted: the scanner salvages a record from it, as with index line
`a1` (the counterexample) or with `#\n1\n00:00:00,000 --> 00:00:01,000\nhi`,
whose interior lines `1\n00:00:00,000 ... hi` decode to a record. -/
theorem C6_skip_unmatched (pre : List Char) (s : String)
    (h1 : stripBOM (pre ++ s.toList) = pre ++ s.toList)
    (h2 : stripBOM s.toList = s.toList)
    (hnm : ∀ n, n < pre.length → matchBlock (pre.drop n ++ s.toList) = none) :
    parse_srt (pre.asString ++ s) = parse_srt s := by
  show scanList (stripBOM (pre.asString ++ s).toList) = scanList (stripBOM s.toList)
  rw [h2, toList_append, toList_asString, h1]
  exact scanList_skip_front pre s.toList hnm

/-- Witness for C6 (amended): the front segment is a malformed block whose
index line is `#` and which contains no matchable sub-pattern; the remainder
holds one well-formed block, which still decodes after it. -/
theorem C6_amended_witness :
    (stripBOM ("#\n00:00:00,000 --> 00:00:01,000\nskipme\n\n".toList
        ++ "2\n00:00:03,000 --> 00:00:04,000\nMundo\n".toList)
      = "#\n00:00:00,000 --> 00:00:01,000\nskipme\n\n".toList
        ++ "2\n00:00:03,000 --> 00:00:04,000\nMundo\n".toList) ∧
    (∀ n, n < ("#\n00:00:00,000 --> 00:00:01,000\nskipme\n\n".toList).length →
      matchBlock (("#\n00:00:00,000 --> 00:00:01,000\nskipme\n\n".toList).drop n
          ++ "2\n00:00:03,000 --> 00:00:04,000\nMundo\n".toList) = none) ∧
    parse_srt (("#\n00:00:00,000 --> 00:00:01,000\nskipme\n\n".toList).asString
        ++ "2\n00:00:03,000 --> 00:00:04,000\nMundo\n")
      = parse_srt "2\n00:00:03,000 --> 00:00:04,000\nMundo\n" :=
  ⟨by decide, by decide,
    C6_skip_unmatched "#\n00:00:00,000 --> 00:00:01,000\nskipme\n\n".toList
      "2\n00:00:03,000 --> 00:00:04,000\nMundo\n" (by decide) (by decide) (by decide)⟩

/-- C7 (`functional_correctness`): a well-formed block (digit index,
shape-correct timestamps) whose text portion is any non-empty sequence of
newline-free non-empty lines decodes to a single record whose `text` is the
lines joined by single spaces: the internal newlines are each replaced by
one space. -/
theorem C7_multiline_collapse (idx ts1 ts2 : List Char) (ls : List (List Char))
    (hidxne : idx ≠ []) (hidxd : ∀ c ∈ idx, c.isDigit = true)
    (hts1 : tsShape ts1 = true) (hts2 : tsShape ts2 = true)
    (hls : ls ≠ []) (hl : ∀ l ∈ ls, l ≠ [] ∧ '\n' ∉ l) :
    parse_srt ((idx ++ '\n' :: (ts1 ++ ' ' :: '-' :: '-' :: '>' :: ' ' ::
        (ts2 ++ '\n' :: (joinLines ls ++ ['\n', '\n'])))).asString)
      = [⟨idx.asString, ts1.asString, ts2.asString, (joinSpaces ls).asString⟩] := by
  cases idx with
  | nil => exact absurd rfl hidxne
  | cons c0 idx' =>
    have hc0 : c0.isDigit = true := hidxd c0 (List.mem_cons_self _ _)
    show scanList (stripBOM (List.asString _).toList) = _
    rw [toList_asString, List.cons_append, stripBOM_cons _ (digit_ne_bom hc0),
      ← List.cons_append]
    have hm := matchBlock_assembled (c0 :: idx') ts1 ts2
      (joinLines ls ++ ['\n', '\n']) (by simp) hidxd hts1 hts2
    have hstop : stopHere ['\n', '\n'] = true := rfl
    rw [lazyText_exact ['\n', '\n']
      (joinLines_ne_nil hls (fun l hlmem => (hl l hlmem).1))
      (noStopMid_joinLines ls hls hl) hstop] at hm
    simp only [Option.map_some'] at hm
    rw [scanList_matched hm]
    rw [map_subNl_joinLines ls (fun l hlmem => (hl l hlmem).2)]
    rfl

/-- Witness for C7 at the spec's example: text lines `["Hello", "world"]`
decode to `"Hello world"`. -/
theorem C7_witness :
    (∀ l ∈ (["Hello".toList, "world".toList] : List (List Char)), l ≠ [] ∧ '\n' ∉ l) ∧
    parse_srt "1\n00:00:00,000 --> 00:00:01,000\nHello\nworld\n\n"
      = [⟨"1", "00:00:00,000", "00:00:01,000", "Hello world"⟩] := by
  constructor
  · decide
  · have h := C7_multiline_collapse "1".toList "00:00:00,000".toList
      "00:00:01,000".toList ["Hello".toList, "world".toList]
      (by decide) (by decide) (by decide) (by decide) (by decide) (by decide)
    have e1 : (("1".toList ++ '\n' :: ("00:00:00,000".toList ++ ' ' :: '-' :: '-' :: '>' :: ' ' ::
        ("00:00:01,000".toList ++ '\n' ::
          (joinLines ["Hello".toList, "world".toList] ++ ['\n', '\n']))))).asString
        = "1\n00:00:00,000 --> 00:00:01,000\nHello\nworld\n\n" := by decide
    have e2 : (⟨"1".toList.asString, "00:00:00,000".toList.asString,
        "00:00:01,000".toList.asString,
        (joinSpaces ["Hello".toList, "world".toList]).asString⟩ : Subtitle)
        = ⟨"1", "00:00:00,000", "00:00:01,000", "Hello world"⟩ := by decide
    rw [e1, e2] at h
    exact h

/-- C8 (counterexample): the suggested filename for target language `es` is
`traducido_es.srt`, not `translated_es.srt` as the claim states. -/
theorem C8_counterexample :
    translate_filename "es" = "traducido_es.srt" ∧
    translate_filename "es" ≠ "translated_es.srt" := by
  constructor
  · decide
  · decide

/-- C8 (amended): the result sent back to the messaging layer carries the
suggested filename `traducido_<langCode>.srt` (Spanish, from
`f"traducido_{dest_lang}.srt"` at line 147). -/
theorem C8_filename (destLang : String) :
    translate_filename destLang = "traducido_" ++ destLang ++ ".srt" := rfl

/-- C9 (`invariants`): every record produced by `Decode` is well-formed: its
index is a non-empty string of decimal digits, its `start` and `end` match
the shape `\d{2}:\d{2}:\d{2},\d{3}` exactly, and its text contains no
newline character. -/
theorem C9_record_invariant (s : String) (r : Subtitle) (h : r ∈ parse_srt s) :
    r.index.toList ≠ [] ∧ (∀ c ∈ r.index.toList, c.isDigit = true) ∧
    tsShape r.start.toList = true ∧ tsShape r.«end».toList = true ∧
    '\n' ∉ r.text.toList := by
  obtain ⟨h1, h2, h3, h4, _, h6⟩ := parse_srt_wf h
  exact ⟨h1, h2, h3, h4, h6⟩

/-- Witness for C9 on a concrete decoded record. -/
theorem C9_witness :
    (⟨"12", "00:00:01,000", "00:00:02,500", "Hola amigo"⟩ : Subtitle)
        ∈ parse_srt "12\n00:00:01,000 --> 00:00:02,500\nHola\namigo\n\n" ∧
    ((⟨"12", "00:00:01,000", "00:00:02,500", "Hola amigo"⟩ : Subtitle).index.toList ≠ [] ∧
      (∀ c ∈ (⟨"12", "00:00:01,000", "00:00:02,500", "Hola amigo"⟩ : Subtitle).index.toList,
        c.isDigit = true) ∧
      tsShape (⟨"12", "00:00:01,000", "00:00:02,500", "Hola amigo"⟩ : Subtitle).start.toList = true ∧
      tsShape (⟨"12", "00:00:01,000", "00:00:02,500", "Hola amigo"⟩ : Subtitle).«end».toList = true ∧
      '\n' ∉ (⟨"12", "00:00:01,000", "00:00:02,500", "Hola amigo"⟩ : Subtitle).text.toList) :=
  ⟨by decide, C9_record_invariant "12\n00:00:01,000 --> 00:00:02,500\nHola\namigo\n\n"
    ⟨"12", "00:00:01,000", "00:00:02,500", "Hola amigo"⟩ (by decide)⟩

/-- C10 (`functional_correctness`): when decoding yields zero records the
batch loop body never runs, so the external translator is never handed any
text and the encoded output is the empty byte sequence (`'\n'.join([])`
encoded), returned without raising — the `TypeError`-raising sleeps are
never reached. -/
theorem C10_empty_noop (oracle : String → Nat → Option String) (mR bs : Nat)
    (content : String) (h : parse_srt content = []) :
    translate_srt_run oracle mR bs content = .ok "" ∧
    translate_srt_texts bs (parse_srt content) = [] := by
  constructor
  · unfold translate_srt_run
    rw [h]
    rfl
  · unfold translate_srt_texts
    rw [h]
    rfl

/-- Witness for C10 on an input that decodes to zero records. -/
theorem C10_witness :
    parse_srt "plain text" = [] ∧
    translate_srt_run (fun _ _ => some "Hello") max_retries batch_size "plain text"
      = .ok "" ∧
    translate_srt_texts batch_size (parse_srt "plain text") = [] :=
  ⟨by decide,
    (C10_empty_noop (fun _ _ => some "Hello") max_retries batch_size "plain text"
      (by decide)).1,
    (C10_empty_noop (fun _ _ => some "Hello") max_retries batch_size "plain text"
      (by decide)).2⟩
